import Mathlib

/-!
Verification of the FED balance-sheet / rate-spread monitoring engine
(src/app.py): series normalization (`fetch_fred_data`, lines 93-143),
two-series alignment and spread computation (`calculate_spread`,
lines 463-507), signal classification (`get_signal_status`,
lines 509-514), the table delta and its direction indicator
(`main`, lines 931-937, and `format_change`, lines 274-284), the
`st.cache_data(ttl=1800)` memoization of `fetch_fred_data`
(line 61), and the fear-and-greed provider fallback chain
(`get_fear_greed_index`, lines 618-771).

Dates are modelled as naturals (only their order matters), numeric
values as rationals, pandas frames as lists of rows, and NaN/absent
payload values as `Option`.
-/

namespace Fed

/-- One row of the frame returned by `fetch_fred_data` after value
coercion: a calendar date and a numeric value.  The frame has exactly
the two columns `date` and `value` (src/app.py line 127). -/
structure Obs where
  date : Nat
  value : ℚ
deriving DecidableEq, Repr

/-- One raw FRED observation as received in the JSON payload: a date
and a value string.  `value = none` models a value that
`pd.to_numeric(..., errors="coerce")` turns into NaN
(src/app.py line 117). -/
structure RawObs where
  date : Nat
  value : Option ℚ
deriving DecidableEq, Repr

/-- Row order used by `sort_values('date', ascending=False)`
(src/app.py line 127): `a` comes before `b` when `b.date ≤ a.date`. -/
def dateGE (a b : Obs) : Prop := b.date ≤ a.date

instance : DecidableRel dateGE :=
  fun a b => inferInstanceAs (Decidable (b.date ≤ a.date))

instance : IsTotal Obs dateGE :=
  ⟨fun a b => (Nat.le_total a.date b.date).symm⟩

instance : IsTrans Obs dateGE :=
  ⟨fun _ _ _ hab hbc => Nat.le_trans hbc hab⟩

/-- The rows that survive value coercion: `pd.to_numeric(...,
errors="coerce")` followed by `dropna(subset=['value'])`
(src/app.py lines 117-120) keeps exactly the rows whose value parsed. -/
def parseRows (raw : List RawObs) : List Obs :=
  raw.filterMap (fun r => r.value.map (fun v => ⟨r.date, v⟩))

/-- Normalization core of `fetch_fred_data` (src/app.py lines 96-129):
coerce values, drop NaN rows, return `none` when nothing remains
(line 122-124), otherwise keep exactly the `date`/`value` columns
sorted by date descending (line 127).  The HTTP / JSON-shape failure
paths of lines 93-143 all return `None` and are modelled by a `none`
result. -/
def fetch_fred_data (raw : List RawObs) : Option (List Obs) :=
  let rows := parseRows raw
  if rows.isEmpty then none else some (List.insertionSort dateGE rows)

/-! ### Signal bands and classification (src/app.py lines 350-461, 509-514) -/

/-- A band bound as written in the `SPREADS` tables: `float('-inf')`,
a finite number, or `float('inf')`. -/
inductive FVal where
  | ninf
  | fin (q : ℚ)
  | pinf
deriving DecidableEq, Repr

/-- Python `<=` on band bounds (IEEE comparison restricted to the
values that occur: ±inf and finite numbers). -/
def FVal.leb : FVal → FVal → Bool
  | .ninf, _ => true
  | _, .pinf => true
  | .fin a, .fin b => decide (a ≤ b)
  | _, _ => false

/-- Python `<` on band bounds. -/
def FVal.ltb : FVal → FVal → Bool
  | .pinf, _ => false
  | _, .ninf => false
  | .ninf, _ => true
  | .fin a, .fin b => decide (a < b)
  | .fin _, .pinf => true

/-- One entry of a `signals` dict: its key, the `(min_val, max_val,
message)` triple (src/app.py lines 360-365 etc.).  Python dicts keep
insertion order, so a `signals` table is an ordered list. -/
structure SignalBand where
  name : String
  lower : FVal
  upper : FVal
  message : String
deriving DecidableEq, Repr

/-- `get_signal_status` (src/app.py lines 509-514): scan the bands in
declaration order, return the message of the first band with
`min_val <= value < max_val`, else the sentinel. -/
def get_signal_status (value : ℚ) : List SignalBand → String
  | [] => "📊 데이터 확인 필요"
  | b :: rest =>
    if b.lower.leb (.fin value) && FVal.ltb (.fin value) b.upper then b.message
    else get_signal_status value rest

/-- Mathematical reading of the lower bound test `lower ≤ v`. -/
def lowerSat : FVal → ℚ → Prop
  | .ninf, _ => True
  | .fin q, v => q ≤ v
  | .pinf, _ => False

/-- Mathematical reading of the upper bound test `v < upper`. -/
def upperSat : FVal → ℚ → Prop
  | .pinf, _ => True
  | .fin q, v => v < q
  | .ninf, _ => False

instance : ∀ (f : FVal) (v : ℚ), Decidable (lowerSat f v)
  | .ninf, _ => .isTrue trivial
  | .fin q, v => inferInstanceAs (Decidable (q ≤ v))
  | .pinf, _ => .isFalse (fun h => h)

instance : ∀ (f : FVal) (v : ℚ), Decidable (upperSat f v)
  | .pinf, _ => .isTrue trivial
  | .fin q, v => inferInstanceAs (Decidable (v < q))
  | .ninf, _ => .isFalse (fun h => h)

/-- The `signals` table of the SOFR-IORB spread definition
(src/app.py lines 360-365), in declaration order. -/
def sofrIorbSignals : List SignalBand :=
  [ ⟨"crisis", .ninf, .fin 0, "🚨 은행간 신뢰 붕괴 - 연준 예치 선호"⟩,
    ⟨"warning", .fin 0, .fin 2, "⚠️ 은행간 거래 위축 - 주의 필요"⟩,
    ⟨"normal", .fin 2, .fin 10, "✅ 정상 - 은행간 거래 활발"⟩,
    ⟨"tight", .fin 10, .pinf, "📈 레포시장 타이트 - 담보 수요 증가"⟩ ]

/-- Overlapping bands used by the spec's order-priority example:
`[(0,10,"A"), (5,15,"B")]`. -/
def overlapBands : List SignalBand :=
  [ ⟨"A", .fin 0, .fin 10, "A"⟩, ⟨"B", .fin 5, .fin 15, "B"⟩ ]

/-! ### The `st.cache_data(ttl=1800)` layer around `fetch_fred_data`
(src/app.py line 61).

`st.cache_data` memoizes the decorated function's RETURN VALUE keyed
by its arguments; an entry is reused while its age is below the TTL
and is replaced by a fresh call otherwise.  Only a raised exception is
left uncached — but `fetch_fred_data` catches every exception and
returns `None` (src/app.py lines 133-143), so the `None` produced by a
failed fetch is an ordinary return value and is stored like any other
result. -/

/-- The memoization key of `fetch_fred_data`: its arguments
`(series_id, limit, start_date, end_date)`. -/
structure FetchKey where
  series_id : String
  limit : Option Nat
  start_date : Option String
  end_date : Option String
deriving DecidableEq, Repr

/-- The process-wide cache: for each key, the stored return value of
`fetch_fred_data` (possibly `none`!) and the time it was stored. -/
abbrev CacheMap := List (FetchKey × (Option (List Obs) × Nat))

/-- Look a key up in the cache. -/
def cacheLookup (c : CacheMap) (k : FetchKey) : Option (Option (List Obs) × Nat) :=
  (c.find? (fun e => e.1 == k)).map (fun e => e.2)

/-- Store a return value for a key (whole-entry replacement). -/
def cacheStore (c : CacheMap) (k : FetchKey) (v : Option (List Obs)) (t : Nat) : CacheMap :=
  (k, (v, t)) :: c.filter (fun e => !(e.1 == k))

/-- Outcome of one cached call: the value handed to the caller, the
cache afterwards, and whether the underlying retrieval ran. -/
structure CallResult where
  result : Option (List Obs)
  cache : CacheMap
  invoked : Bool
deriving Repr

/-- One call of the `st.cache_data(ttl=1800)`-decorated
`fetch_fred_data` for key `k` at time `now`: a fresh entry is returned
without invoking the retrieval; otherwise the retrieval runs and its
return value — including `none` from a failed fetch — is stored with
the current timestamp. -/
def cachedFetch (ttl : Nat) (c : CacheMap) (now : Nat) (k : FetchKey)
    (fetchFn : FetchKey → Option (List Obs)) : CallResult :=
  match cacheLookup c k with
  | some vt =>
    if now - vt.2 < ttl then ⟨vt.1, c, false⟩
    else ⟨fetchFn k, cacheStore c k (fetchFn k) now, true⟩
  | none => ⟨fetchFn k, cacheStore c k (fetchFn k) now, true⟩

/-- Concrete key used by the cache counterexample and witness. -/
def k0 : FetchKey := ⟨"WALCL", some 10, none, none⟩

/-- A retrieval that always fails (times out / non-200 / malformed),
i.e. `fetch_fred_data`'s body returns `None`. -/
def failF : FetchKey → Option (List Obs) := fun _ => none

/-! ### Rolling average (src/app.py line 476) -/

/-- Arithmetic mean of a list of rationals. -/
def listMean (xs : List ℚ) : ℚ := xs.sum / (xs.length : ℚ)

/-- Pandas `Series.rolling(window=w, min_periods=1).mean()`: at row
position `k` (positions run in the FRAME's row order), the mean of the
rows at positions `max 0 (k+1-w) .. k`. -/
def rollingMean (w : Nat) (xs : List ℚ) : List ℚ :=
  (List.range xs.length).map (fun k => listMean ((xs.take (k + 1)).drop (k + 1 - w)))

/-- `df['ma_4w']` of the single-series branch of `calculate_spread`
(src/app.py lines 475-476): `spread = value * multiplier`, then
`rolling(window=4, min_periods=1).mean()` applied to the frame in the
order `fetch_fred_data` returned it — date DESCENDING (line 127). -/
def ma_4w (rows : List Obs) (m : ℚ) : List ℚ :=
  rollingMean 4 (rows.map (fun o => o.value * m))

/-- The same `ma_4w` column read in chronological (date-ascending)
order, i.e. reversed frame order. -/
def ma_4w_chron (rows : List Obs) (m : ℚ) : List ℚ := (ma_4w rows m).reverse

/-! ### Table delta and direction indicator
(src/app.py lines 931-937 and 274-284) -/

/-- The weekly change computed by `main` (src/app.py lines 931-937):
if the fetched frame exists and has at least two rows, the first row's
value minus the second row's value; otherwise the row shows "N/A" and
no delta is computed (modelled as `none`). -/
def tableChange : Option (List Obs) → Option ℚ
  | some (r0 :: r1 :: _) => some (r0.value - r1.value)
  | _ => none

/-- Round to the nearest integer, halves to even, modelling Python's
`format(x, ',.0f')` rounding of the numeric part.  (`Int.fdiv num den`
is the floor of the rational.) -/
def roundHalfEven (q : ℚ) : ℤ :=
  let den : ℤ := Int.ofNat q.den
  let f : ℤ := Int.fdiv q.num den
  let rem : ℤ := q.num - f * den
  if 2 * rem < den then f
  else if den < 2 * rem then f + 1
  else if f % 2 = 0 then f else f + 1

/-- Insert `','` after every third emitted character; input and output
run from the LEAST significant digit (the caller reverses around it). -/
def commaEvery3 : Nat → List Char → List Char
  | _, [] => []
  | n, c :: rest =>
    if n = 3 then ',' :: c :: commaEvery3 1 rest
    else c :: commaEvery3 (n + 1) rest

/-- Python `f"{q:,.0f}"`: round to zero decimals and group the digits
with commas, as characters. -/
def fmtComma0 (q : ℚ) : List Char :=
  (if q < 0 then ['-'] else []) ++
    (commaEvery3 0 ((Nat.toDigits 10 (roundHalfEven q).natAbs).reverse)).reverse

/-- `format_change` (src/app.py lines 274-284): prefix `▲` when the
change is positive, `▼` when it is negative, plain when it is zero.
The `pd.isna(change)` guard of line 276 is unreachable here because a
rational change always exists (callers only compute it from two real
rows). -/
def format_change (change : ℚ) : String :=
  if 0 < change then String.mk ('▲' :: ' ' :: fmtComma0 (abs change))
  else if change < 0 then String.mk ('▼' :: ' ' :: fmtComma0 (abs change))
  else String.mk (fmtComma0 change)

/-! ### Fear & Greed strategy chain (src/app.py lines 618-771) -/

/-- The record returned by `get_fear_greed_index` on success. -/
structure FGData where
  score : ℚ
  status : String
  rating : String
  color : String
  emoji : String
  source : String
deriving DecidableEq, Repr

/-- The score-to-(status, color, emoji) ladder duplicated verbatim in
all three provider branches of `get_fear_greed_index`
(src/app.py lines 636-655, 680-699, 739-758). -/
def fg_status_of (score : ℚ) : String × String × String :=
  if 75 ≤ score then ("Extreme Greed", "#16a34a", "🤑")
  else if 55 ≤ score then ("Greed", "#22c55e", "😊")
  else if 45 ≤ score then ("Neutral", "#eab308", "😐")
  else if 25 ≤ score then ("Fear", "#f97316", "😨")
  else ("Extreme Fear", "#dc2626", "😱")

/-- The VIX-to-score ladder of the third provider
(src/app.py lines 721-736). -/
def vix_fg_score (v : ℚ) : ℚ :=
  if v ≤ 12 then 85 else if v ≤ 15 then 75 else if v ≤ 20 then 60
  else if v ≤ 25 then 50 else if v ≤ 30 then 40 else if v ≤ 35 then 30
  else if v ≤ 40 then 20 else 10

/-- Python `f"{q:.2f}"` (two decimals), used in the VIX rating text. -/
def fmt2 (q : ℚ) : String :=
  let n : ℤ := roundHalfEven (q * 100)
  let m : Nat := n.natAbs
  let r : Nat := m % 100
  (if n < 0 then "-" else "") ++ toString (m / 100) ++ "." ++
    (if r < 10 then "0" else "") ++ toString r

/-- `get_fear_greed_index` (src/app.py lines 618-771), with each
provider's network call abstracted to its parsed outcome: `cnn` is the
CNN API's `(score, rating)` when it succeeds, `alt` is the
alternative.me `(value, value_classification)`, `vix` is the fetched
VIX close.  The body tries them in that fixed order, builds the result
from the first success (recording the provider in `source`), and
returns `none` when every provider fails. -/
def get_fear_greed_index (cnn : Option (ℚ × String)) (alt : Option (ℚ × String))
    (vix : Option ℚ) : Option FGData :=
  match cnn with
  | some sr =>
    some { score := sr.1, status := (fg_status_of sr.1).1, rating := sr.2,
           color := (fg_status_of sr.1).2.1, emoji := (fg_status_of sr.1).2.2,
           source := "CNN API" }
  | none =>
    match alt with
    | some sr =>
      some { score := sr.1, status := (fg_status_of sr.1).1, rating := sr.2,
             color := (fg_status_of sr.1).2.1, emoji := (fg_status_of sr.1).2.2,
             source := "Crypto F&G (참고용)" }
    | none =>
      match vix with
      | some v =>
        some { score := vix_fg_score v, status := (fg_status_of (vix_fg_score v)).1,
               rating := "VIX 기반 추정 (VIX: " ++ fmt2 v ++ ")",
               color := (fg_status_of (vix_fg_score v)).2.1,
               emoji := (fg_status_of (vix_fg_score v)).2.2,
               source := "VIX 기반 계산" }
      | none => none

/-! ### Two-series alignment and spread (src/app.py lines 485-507)

`calculate_spread` sets `date` as the index of both frames, takes
`df1.join(df2, how='outer')` (pandas builds the sorted-ascending union
of the two date indexes, with NaN where a frame has no row for a
date), applies `ffill()` column-wise down the frame, `dropna()`, and
finally `sort_index(ascending=False)` — which, on the
ascending-sorted joined frame, is a reversal. -/

/-- The value a series has AT a date (the join step): the value of its
row for that exact date, `none` (NaN) when there is no such row. -/
def valueAt (s : List Obs) (d : Nat) : Option ℚ :=
  (s.find? (fun o => o.date == d)).map (fun o => o.value)

/-- Insert a date into an ascending-sorted list of distinct dates. -/
def insertAsc (d : Nat) : List Nat → List Nat
  | [] => [d]
  | e :: rest =>
    if d < e then d :: e :: rest
    else if d = e then e :: rest
    else e :: insertAsc d rest

/-- The sorted-ascending union of the two series' dates: the index of
the outer join. -/
def unionDates (a b : List Obs) : List Nat :=
  (a.map (fun o => o.date) ++ b.map (fun o => o.date)).foldr insertAsc []

/-- Pandas `ffill()` over the two value columns of the joined frame:
each NaN cell takes the column's last non-NaN value above it, carried
in `ca` / `cb`. -/
def ffill2 : Option ℚ → Option ℚ → List (Nat × Option ℚ × Option ℚ) →
    List (Nat × Option ℚ × Option ℚ)
  | _, _, [] => []
  | ca, cb, (d, av, bv) :: rest =>
    let x := match av with | some v => some v | none => ca
    let y := match bv with | some v => some v | none => cb
    (d, x, y) :: ffill2 x y rest

/-- Pandas `dropna()`: keep exactly the rows where both columns are
resolved. -/
def dropUnresolved (rows : List (Nat × Option ℚ × Option ℚ)) : List (Nat × ℚ × ℚ) :=
  rows.filterMap (fun r =>
    match r with
    | (d, some x, some y) => some (d, x, y)
    | _ => none)

/-- The aligned frame built by `calculate_spread`
(src/app.py lines 493-501): outer join on the date index, forward
fill, drop unresolved rows, sort date-descending (a reversal of the
ascending joined frame). -/
def alignFrame (a b : List Obs) : List (Nat × ℚ × ℚ) :=
  (dropUnresolved (ffill2 none none
    ((unionDates a b).map (fun d => (d, valueAt a d, valueAt b d))))).reverse

/-- The `spread` column (src/app.py line 503):
`(df[series1] - df[series2]) * multiplier` per aligned row. -/
def spreadFrame (a b : List Obs) (m : ℚ) : List (Nat × ℚ) :=
  (alignFrame a b).map (fun r => (r.1, (r.2.1 - r.2.2) * m))

/-- `latest_value = df['spread'].iloc[0] if len(df) > 0 else None`
(src/app.py line 505). -/
def latestSpread (a b : List Obs) (m : ℚ) : Option ℚ :=
  (spreadFrame a b m).head?.map (fun r => r.2)

/-- The member of `s` with the greatest date among those whose date
satisfies `p`; `none` when no date satisfies `p`. -/
def bestWithin (p : Nat → Bool) : List Obs → Option Obs
  | [] => none
  | o :: rest =>
    match bestWithin p rest with
    | none => if p o.date then some o else none
    | some q => if p o.date then (if q.date < o.date then some o else some q) else some q

/-- Spec-level forward-filled value of a series at a date: the value
of its most recent observation with date ≤ `d` (never a later one). -/
def ffillValue (s : List Obs) (d : Nat) : Option ℚ :=
  (bestWithin (fun e => decide (e ≤ d)) s).map (fun o => o.value)

/-- The value of the most recent observation STRICTLY before `d`. -/
def prevValue (s : List Obs) (d : Nat) : Option ℚ :=
  (bestWithin (fun e => decide (e < d)) s).map (fun o => o.value)

/-- Series A of the spec's forward-fill example (§8 item 4), in the
descending order `fetch_fred_data` returns: `{d1 ↦ 1.0, d3 ↦ 1.2}`
with `d1 = 1`, `d3 = 3`. -/
def exA : List Obs := [⟨3, 6/5⟩, ⟨1, 1⟩]

/-- Series B of the forward-fill example: `{d2 ↦ 2.0}` with `d2 = 2`. -/
def exB : List Obs := [⟨2, 2⟩]

/-- Series A of the spec's end-to-end spread example (§8 item 7):
`{(2024-01-05, 5.33), (2024-01-04, 5.30)}`, dates coded 5 and 4. -/
def c7A : List Obs := [⟨5, 533/100⟩, ⟨4, 530/100⟩]

/-- Series B of the end-to-end spread example:
`{(2024-01-05, 5.31), (2024-01-04, 5.31)}`. -/
def c7B : List Obs := [⟨5, 531/100⟩, ⟨4, 531/100⟩]

/-- Raw input with two rows for the same date (used against the
de-duplication claim). -/
def dupRaw : List RawObs := [⟨7, some 1⟩, ⟨7, some 2⟩]

/-- Raw input with an unparsable middle value (used by the frame
invariant witness). -/
def rawW : List RawObs := [⟨2, none⟩, ⟨1, some 3⟩, ⟨3, some 5⟩]

/-! ## Classifier (C2) -/

/-- C2: `get_signal_status` returns the message of the FIRST band (in
declaration order) whose half-open interval `lower ≤ v < upper`
contains the value — so declaration order wins on overlap, the lower
bound is inclusive and the upper bound exclusive — and returns the
sentinel undetermined message (total function, never an exception)
when no band matches. -/
theorem classify_first_match (v : ℚ) (bands : List SignalBand) :
    get_signal_status v bands =
      match bands.find? (fun b => decide (lowerSat b.lower v ∧ upperSat b.upper v)) with
      | some b => b.message
      | none => "📊 데이터 확인 필요" := by
  induction bands with
  | nil => rfl
  | cons b rest ih =>
    have hcond : (b.lower.leb (FVal.fin v) && FVal.ltb (FVal.fin v) b.upper) =
        decide (lowerSat b.lower v ∧ upperSat b.upper v) := by
      cases b.lower <;> cases b.upper <;>
        simp [FVal.leb, FVal.ltb, lowerSat, upperSat]
    by_cases h : lowerSat b.lower v ∧ upperSat b.upper v
    · rw [List.find?_cons_of_pos _ (by simpa using h)]
      simp only [get_signal_status, hcond]
      simp [h]
    · rw [List.find?_cons_of_neg _ (by simpa using h)]
      simp only [get_signal_status, hcond]
      simp [h, ih]

/-- C2 witness: on the spec's overlapping bands `[(0,10,"A"),
(5,15,"B")]` the value 7 classifies as "A" — the first declared
match wins. -/
theorem classify_first_match_witness :
    get_signal_status 7 overlapBands = "A" :=
  (classify_first_match 7 overlapBands).trans (by rfl)

/-! ## Cache (C1) -/

theorem cacheLookup_store_self (c : CacheMap) (k : FetchKey) (v : Option (List Obs)) (t : Nat) :
    cacheLookup (cacheStore c k v t) k = some (v, t) := by
  unfold cacheLookup cacheStore
  rw [List.find?_cons_of_pos]
  · rfl
  · simp

/-- C1 counterexample: with an empty cache and a retrieval that fails,
`fetch_fred_data`'s `None` return IS stored (the cache is no longer
empty), and the next call for the same key within the TTL does NOT
invoke the retrieval — contradicting "stores nothing in the cache
and ... the very next call ... invokes the underlying retrieval again
unconditionally". -/
theorem cache_failed_fetch_counterexample :
    (cachedFetch 1800 ([] : CacheMap) 0 k0 failF).cache ≠ ([] : CacheMap) ∧
    (cachedFetch 1800 (cachedFetch 1800 ([] : CacheMap) 0 k0 failF).cache 60 k0 failF).invoked
      = false :=
  ⟨by decide, by rfl⟩

/-- C1 (amended): a fetch whose retrieval fails returns Unavailable
(`none`) — but the `none` return value is cached with the current
timestamp like any success, so the next call for the same key within
the TTL returns the cached `none` WITHOUT invoking the retrieval;
only after TTL expiry (or an explicit cache clear) does the retrieval
run again. -/
theorem cache_failed_fetch_amended (c : CacheMap) (k : FetchKey)
    (f : FetchKey → Option (List Obs)) (now later : Nat)
    (hmiss : cacheLookup c k = none) (hfail : f k = none)
    (hfresh : later - now < 1800) :
    (cachedFetch 1800 c now k f).result = none ∧
    (cachedFetch 1800 c now k f).invoked = true ∧
    cacheLookup (cachedFetch 1800 c now k f).cache k = some (none, now) ∧
    (cachedFetch 1800 (cachedFetch 1800 c now k f).cache later k f).invoked = false ∧
    (cachedFetch 1800 (cachedFetch 1800 c now k f).cache later k f).result = none := by
  have h1 : cachedFetch 1800 c now k f = ⟨none, cacheStore c k none now, true⟩ := by
    unfold cachedFetch
    rw [hmiss, hfail]
  have hlook : cacheLookup (cacheStore c k none now) k = some (none, now) :=
    cacheLookup_store_self c k none now
  have h2 : cachedFetch 1800 (cacheStore c k none now) later k f =
      ⟨none, cacheStore c k none now, false⟩ := by
    unfold cachedFetch
    rw [hlook]
    simp [hfresh]
  rw [h1]
  exact ⟨rfl, rfl, hlook, by rw [show (⟨none, cacheStore c k none now, true⟩ :
    CallResult).cache = cacheStore c k none now from rfl, h2], by rw [show (⟨none,
    cacheStore c k none now, true⟩ : CallResult).cache = cacheStore c k none now from rfl, h2]⟩

/-- C1 witness: concrete run — empty cache, key `k0`, failing
retrieval, second call 60 seconds later. -/
theorem cache_failed_fetch_amended_witness :
    cacheLookup (cachedFetch 1800 ([] : CacheMap) 0 k0 failF).cache k0 = some (none, 0) ∧
    (cachedFetch 1800 (cachedFetch 1800 ([] : CacheMap) 0 k0 failF).cache 60 k0 failF).invoked
      = false := by
  have h := cache_failed_fetch_amended [] k0 failF 0 60 rfl rfl (by decide)
  exact ⟨h.2.2.1, h.2.2.2.1⟩

/-! ## Rolling average (C3) -/

/-- C3: the code applies `rolling(window=4, min_periods=1).mean()` to
the DATE-DESCENDING frame, so at chronological position `i` it
averages the current and up to three NEWER points.  For the
chronological series `[1, 2, 3]` it produces `[2, 5/2, 3]`, not the
trailing averages `[1, 3/2, 2]` that the spec's `min(i+1, N)`
most-recent-points contract requires. -/
theorem rolling_average_reversed_window_bug :
    ma_4w_chron [⟨3, (3 : ℚ)⟩, ⟨2, 2⟩, ⟨1, 1⟩] 1 = [2, 5/2, 3] ∧
    ([2, (5 : ℚ)/2, 3] ≠ [1, 3/2, 2]) := by
  constructor
  · norm_num [ma_4w_chron, ma_4w, rollingMean, listMean, List.range_succ]
  · intro h
    have : (2 : ℚ) = 1 := by injection h
    norm_num at this

/-! ## Normalization (C5, C10) -/

/-- C5 counterexample: a raw payload with two rows for date 7 is
normalized to a frame that still has BOTH rows — `fetch_fred_data`
performs no de-duplication, so the output dates are not unique. -/
theorem normalize_duplicate_dates_counterexample :
    fetch_fred_data dupRaw = some [⟨7, (1 : ℚ)⟩, ⟨7, 2⟩] ∧
    ¬ (([⟨7, (1 : ℚ)⟩, ⟨7, 2⟩] : List Obs).map (fun o => o.date)).Nodup :=
  ⟨by rfl, by decide⟩

/-- C5 (amended): normalization keeps EVERY row whose value parses —
the output is a permutation of the parsable input rows, with no
de-duplication — so the output dates are unique exactly when the
parsable input rows' dates already were; duplicate dates in the raw
input are all retained. -/
theorem normalize_no_dedup_amended (raw : List RawObs) (out : List Obs)
    (h : fetch_fred_data raw = some out) :
    out.Perm (parseRows raw) ∧
    ((out.map (fun o => o.date)).Nodup ↔ ((parseRows raw).map (fun o => o.date)).Nodup) := by
  have hout : out = List.insertionSort dateGE (parseRows raw) := by
    by_cases he : (parseRows raw).isEmpty
    · simp [fetch_fred_data, he] at h
    · simp [fetch_fred_data, he] at h
      exact h.symm
  subst hout
  have hperm : (List.insertionSort dateGE (parseRows raw)).Perm (parseRows raw) :=
    List.perm_insertionSort dateGE (parseRows raw)
  exact ⟨hperm, (hperm.map (fun o => o.date)).nodup_iff⟩

/-- C5 witness: the duplicate-date example instantiates the amended
claim. -/
theorem normalize_no_dedup_amended_witness :
    ([⟨7, (1 : ℚ)⟩, ⟨7, 2⟩] : List Obs).Perm (parseRows dupRaw) :=
  (normalize_no_dedup_amended dupRaw [⟨7, 1⟩, ⟨7, 2⟩] (by rfl)).1

/-- C10: every non-`none` result of `fetch_fred_data` is a non-empty
date/value frame, sorted by date descending, whose FIRST row has the
greatest date (the invariant behind every `iloc[0]` latest-value
extraction), and every row carries the parsed numeric value of some
raw observation (no missing values survive). -/
theorem fetch_frame_invariant (raw : List RawObs) (out : List Obs)
    (h : fetch_fred_data raw = some out) :
    out ≠ [] ∧
    List.Sorted dateGE out ∧
    (∀ r0, out.head? = some r0 → ∀ o ∈ out, o.date ≤ r0.date) ∧
    (∀ o ∈ out, ∃ r ∈ raw, r.date = o.date ∧ r.value = some o.value) := by
  have hne : ¬ (parseRows raw).isEmpty := by
    intro he
    simp [fetch_fred_data, he] at h
  have hout : out = List.insertionSort dateGE (parseRows raw) := by
    simp [fetch_fred_data, hne] at h
    exact h.symm
  subst hout
  have hperm : (List.insertionSort dateGE (parseRows raw)).Perm (parseRows raw) :=
    List.perm_insertionSort dateGE (parseRows raw)
  have hsorted : List.Sorted dateGE (List.insertionSort dateGE (parseRows raw)) :=
    List.sorted_insertionSort dateGE (parseRows raw)
  refine ⟨?_, hsorted, ?_, ?_⟩
  · intro hnil
    have hp : parseRows raw = [] := (hnil ▸ hperm).symm.eq_nil
    rw [hp] at hne
    exact hne rfl
  · intro r0 hr0 o ho
    cases hcase : List.insertionSort dateGE (parseRows raw) with
    | nil => rw [hcase] at hr0; simp at hr0
    | cons x t =>
      rw [hcase] at hr0 ho
      have hx : x = r0 := by simpa using hr0
      subst hx
      rw [hcase] at hsorted
      rcases List.mem_cons.mp ho with hcy | hcy
      · exact hcy ▸ le_refl _
      · exact (List.pairwise_cons.mp hsorted).1 o hcy
  · intro o ho
    have hmem : o ∈ parseRows raw := hperm.subset ho
    rw [parseRows, List.mem_filterMap] at hmem
    obtain ⟨r, hr, heq⟩ := hmem
    cases hv : r.value with
    | none => rw [hv] at heq; simp at heq
    | some v =>
      rw [hv] at heq
      simp only [Option.map_some'] at heq
      obtain rfl : (⟨r.date, v⟩ : Obs) = o := by simpa using heq
      exact ⟨r, hr, rfl, by rw [hv]⟩

/-- C10 witness: the raw payload `[(2, NaN), (1, 3), (3, 5)]`
normalizes to the non-empty, date-descending frame
`[(3, 5), (1, 3)]`. -/
theorem fetch_frame_invariant_witness :
    ([⟨3, (5 : ℚ)⟩, ⟨1, 3⟩] : List Obs) ≠ [] ∧
    List.Sorted dateGE ([⟨3, (5 : ℚ)⟩, ⟨1, 3⟩] : List Obs) := by
  have h := fetch_frame_invariant rawW [⟨3, (5 : ℚ)⟩, ⟨1, 3⟩] (by rfl)
  exact ⟨h.1, h.2.1⟩

/-! ## Table delta and direction indicator (C8) -/

theorem data_mk (l : List Char) : (String.mk l).data = l := rfl

theorem format_change_head (c : ℚ) :
    (((format_change c).data.head? = some '▲') ↔ 0 < c) ∧
    (((format_change c).data.head? = some '▼') ↔ c < 0) := by
  rcases lt_trichotomy c 0 with hneg | hz | hpos
  · have hn0 : ¬ 0 < c := not_lt.mpr hneg.le
    rw [format_change, if_neg hn0, if_pos hneg]
    constructor
    · simp [data_mk, hn0]
    · simp [data_mk, hneg]
  · subst hz
    constructor
    · rw [show format_change 0 = String.mk ['0'] from rfl]
      simp [data_mk]
    · rw [show format_change 0 = String.mk ['0'] from rfl]
      simp [data_mk]
  · have hn : ¬ c < 0 := not_lt.mpr hpos.le
    rw [format_change, if_pos hpos]
    constructor
    · simp [data_mk, hpos]
    · simp [data_mk, hn]

/-- C8: on a date-descending frame with at least two rows, the table
delta is `firstRow.value - secondRow.value`, where the first row is
the most recent observation and the second row the most recent of the
rest; the direction indicator starts with `▲` exactly when the delta
is positive and `▼` exactly when it is negative; with fewer than two
rows (or no frame at all) no delta is computed and the row is shown as
unavailable (`none`). -/
theorem delta_direction_spec (rows : List Obs)
    (hs : List.Pairwise (fun p q => q.date < p.date) rows) :
    (∀ r0 r1 rest, rows = r0 :: r1 :: rest →
       tableChange (some rows) = some (r0.value - r1.value) ∧
       (∀ o ∈ rows, o.date ≤ r0.date) ∧
       (∀ o ∈ r1 :: rest, o.date ≤ r1.date) ∧
       (((format_change (r0.value - r1.value)).data.head? = some '▲') ↔ r1.value < r0.value) ∧
       (((format_change (r0.value - r1.value)).data.head? = some '▼') ↔ r0.value < r1.value)) ∧
    (rows.length < 2 → tableChange (some rows) = none) ∧
    tableChange none = none := by
  refine ⟨?_, ?_, rfl⟩
  · rintro r0 r1 rest rfl
    have hs1 := List.pairwise_cons.mp hs
    have hs2 := List.pairwise_cons.mp hs1.2
    refine ⟨rfl, ?_, ?_, ?_, ?_⟩
    · intro o ho
      rcases List.mem_cons.mp ho with hc | hc
      · exact hc ▸ le_refl _
      · exact (hs1.1 o hc).le
    · intro o ho
      rcases List.mem_cons.mp ho with hc | hc
      · exact hc ▸ le_refl _
      · exact (hs2.1 o hc).le
    · exact (format_change_head _).1.trans sub_pos
    · exact (format_change_head _).2.trans sub_neg
  · intro hlen
    match rows with
    | [] => rfl
    | [_] => rfl
    | _ :: _ :: _ => simp at hlen; omega

/-- C8 witness: frame `[(5, 10), (4, 7)]` — delta 3, shown with an up
arrow. -/
theorem delta_direction_spec_witness :
    tableChange (some [⟨5, (10 : ℚ)⟩, ⟨4, 7⟩]) = some 3 ∧
    (format_change ((10 : ℚ) - 7)).data.head? = some '▲' := by
  have h := (delta_direction_spec [⟨5, (10 : ℚ)⟩, ⟨4, 7⟩] (by decide)).1 ⟨5, 10⟩ ⟨4, 7⟩ [] rfl
  refine ⟨?_, h.2.2.2.1.mpr (by norm_num)⟩
  rw [h.1]
  norm_num

/-! ## Fear & Greed strategy chain (C9) -/

/-- C9: `get_fear_greed_index` tries its providers in the fixed
declared order (CNN API, then alternative.me, then the VIX-based
estimate), returns the first success — recording in `source` which
provider answered, and taking the score from that provider — and
returns the distinguishable `none` result exactly when every provider
fails (no exception escapes). -/
theorem fear_greed_chain_spec (cnn alt : Option (ℚ × String)) (vix : Option ℚ) :
    ((get_fear_greed_index cnn alt vix).map (fun r => r.source) =
      ([cnn.map (fun _ => "CNN API"), alt.map (fun _ => "Crypto F&G (참고용)"),
        vix.map (fun _ => "VIX 기반 계산")].filterMap id).head?) ∧
    ((get_fear_greed_index cnn alt vix).map (fun r => r.score) =
      ([cnn.map (fun p => p.1), alt.map (fun p => p.1),
        vix.map (fun v => vix_fg_score v)].filterMap id).head?) ∧
    (get_fear_greed_index cnn alt vix = none ↔ (cnn = none ∧ alt = none ∧ vix = none)) := by
  rcases cnn with _ | sr <;> rcases alt with _ | s2 <;> rcases vix with _ | v <;>
    simp [get_fear_greed_index]

/-- C9 witness: when all three providers fail the chain yields the
distinguishable no-indicator result. -/
theorem fear_greed_chain_spec_witness :
    get_fear_greed_index none none none = none :=
  (fear_greed_chain_spec none none none).2.2.mpr ⟨rfl, rfl, rfl⟩

/-! ## Aligner lemmas (C4, C6, C7) -/

theorem mem_insertAsc {x d : Nat} : ∀ {l : List Nat}, x ∈ insertAsc d l ↔ x = d ∨ x ∈ l := by
  intro l
  induction l with
  | nil => simp [insertAsc]
  | cons e rest ih =>
    simp only [insertAsc]
    by_cases h1 : d < e
    · rw [if_pos h1]
      simp [List.mem_cons]
    · rw [if_neg h1]
      by_cases h2 : d = e
      · rw [if_pos h2]
        subst h2
        simp only [List.mem_cons]
        tauto
      · rw [if_neg h2]
        simp only [List.mem_cons, ih]
        tauto

theorem pairwise_insertAsc {d : Nat} : ∀ {l : List Nat}, l.Pairwise (· < ·) →
    (insertAsc d l).Pairwise (· < ·) := by
  intro l
  induction l with
  | nil => intro; simp [insertAsc]
  | cons e rest ih =>
    intro h
    obtain ⟨he, hrest⟩ := List.pairwise_cons.mp h
    by_cases h1 : d < e
    · simp only [insertAsc, if_pos h1]
      refine List.pairwise_cons.mpr ⟨?_, h⟩
      intro y hy
      rcases List.mem_cons.mp hy with rfl | hy2
      · exact h1
      · exact lt_trans h1 (he y hy2)
    · by_cases h2 : d = e
      · simp only [insertAsc, if_neg h1, if_pos h2]
        exact h
      · simp only [insertAsc, if_neg h1, if_neg h2]
        refine List.pairwise_cons.mpr ⟨?_, ih hrest⟩
        intro y hy
        rcases mem_insertAsc.mp hy with rfl | hy2
        · omega
        · exact he y hy2

theorem pairwise_foldr_insertAsc : ∀ (l : List Nat), (l.foldr insertAsc []).Pairwise (· < ·)
  | [] => List.Pairwise.nil
  | _ :: l => pairwise_insertAsc (pairwise_foldr_insertAsc l)

theorem mem_foldr_insertAsc {x : Nat} : ∀ {l : List Nat}, x ∈ l.foldr insertAsc [] ↔ x ∈ l := by
  intro l
  induction l with
  | nil => simp
  | cons y l ih => simp [List.foldr, mem_insertAsc, ih, List.mem_cons]

theorem unionDates_pairwise (a b : List Obs) : (unionDates a b).Pairwise (· < ·) :=
  pairwise_foldr_insertAsc _

theorem mem_unionDates {a b : List Obs} {d : Nat} :
    d ∈ unionDates a b ↔ (∃ o ∈ a, o.date = d) ∨ (∃ o ∈ b, o.date = d) := by
  rw [unionDates, mem_foldr_insertAsc]
  simp [List.mem_append, List.mem_map]

theorem bestWithin_mem {p : Nat → Bool} : ∀ {s : List Obs} {o : Obs},
    bestWithin p s = some o → o ∈ s ∧ p o.date = true := by
  intro s
  induction s with
  | nil => intro o h; simp [bestWithin] at h
  | cons x rest ih =>
    intro o h
    simp only [bestWithin] at h
    cases hre : bestWithin p rest with
    | none =>
      simp only [hre] at h
      by_cases hx : p x.date
      · rw [if_pos hx] at h
        cases h
        exact ⟨List.mem_cons_self x rest, hx⟩
      · rw [if_neg hx] at h
        exact Option.noConfusion h
    | some q =>
      simp only [hre] at h
      by_cases hx : p x.date
      · rw [if_pos hx] at h
        by_cases hlt : q.date < x.date
        · rw [if_pos hlt] at h
          cases h
          exact ⟨List.mem_cons_self x rest, hx⟩
        · rw [if_neg hlt] at h
          cases h
          have hq := ih hre
          exact ⟨List.mem_cons_of_mem x hq.1, hq.2⟩
      · rw [if_neg hx] at h
        cases h
        have hq := ih hre
        exact ⟨List.mem_cons_of_mem x hq.1, hq.2⟩

theorem bestWithin_ne_none {p : Nat → Bool} {o : Obs} : ∀ {s : List Obs},
    o ∈ s → p o.date = true → bestWithin p s ≠ none := by
  intro s
  induction s with
  | nil => intro ho; simp at ho
  | cons x rest ih =>
    intro ho hp h
    simp only [bestWithin] at h
    rcases List.mem_cons.mp ho with rfl | hmem
    · cases hre : bestWithin p rest with
      | none =>
        simp only [hre] at h
        rw [if_pos hp] at h
        exact Option.noConfusion h
      | some q =>
        simp only [hre] at h
        rw [if_pos hp] at h
        by_cases hlt : q.date < o.date
        · rw [if_pos hlt] at h; exact Option.noConfusion h
        · rw [if_neg hlt] at h; exact Option.noConfusion h
    · cases hre : bestWithin p rest with
      | none => exact ih hmem hp hre
      | some q =>
        simp only [hre] at h
        by_cases hx : p x.date
        · rw [if_pos hx] at h
          by_cases hlt : q.date < x.date
          · rw [if_pos hlt] at h; exact Option.noConfusion h
          · rw [if_neg hlt] at h; exact Option.noConfusion h
        · rw [if_neg hx] at h; exact Option.noConfusion h

theorem bestWithin_none {p : Nat → Bool} : ∀ {s : List Obs},
    (∀ o ∈ s, p o.date = false) → bestWithin p s = none := by
  intro s
  induction s with
  | nil => intro; rfl
  | cons x rest ih =>
    intro hall
    have hx : p x.date = false := hall x (List.mem_cons_self x rest)
    have hrest : bestWithin p rest = none := ih (fun o ho => hall o (List.mem_cons_of_mem x ho))
    simp [bestWithin, hrest, hx]

theorem bestWithin_max {p : Nat → Bool} : ∀ {s : List Obs} {o : Obs},
    bestWithin p s = some o → ∀ q ∈ s, p q.date = true → q.date ≤ o.date := by
  intro s
  induction s with
  | nil => intro o h; simp [bestWithin] at h
  | cons x rest ih =>
    intro o h q hq hpq
    simp only [bestWithin] at h
    rcases List.mem_cons.mp hq with rfl | hmem
    · cases hre : bestWithin p rest with
      | none =>
        simp only [hre] at h
        rw [if_pos hpq] at h
        cases h
        exact le_refl _
      | some r =>
        simp only [hre] at h
        rw [if_pos hpq] at h
        by_cases hlt : r.date < q.date
        · rw [if_pos hlt] at h; cases h; exact le_refl _
        · rw [if_neg hlt] at h; cases h; exact le_of_not_lt hlt
    · cases hre : bestWithin p rest with
      | none => exact absurd hre (bestWithin_ne_none hmem hpq)
      | some r =>
        have hr := ih hre q hmem hpq
        simp only [hre] at h
        by_cases hx : p x.date
        · rw [if_pos hx] at h
          by_cases hlt : r.date < x.date
          · rw [if_pos hlt] at h; cases h; exact le_trans hr (le_of_lt hlt)
          · rw [if_neg hlt] at h; cases h; exact hr
        · rw [if_neg hx] at h; cases h; exact hr

theorem bestWithin_congr {p q : Nat → Bool} : ∀ {s : List Obs},
    (∀ o ∈ s, p o.date = q o.date) → bestWithin p s = bestWithin q s := by
  intro s
  induction s with
  | nil => intro; rfl
  | cons x rest ih =>
    intro hall
    have hx : p x.date = q x.date := hall x (List.mem_cons_self x rest)
    have hrest := ih (fun o ho => hall o (List.mem_cons_of_mem x ho))
    simp only [bestWithin, hrest, hx]

theorem valueAt_some {s : List Obs} {d : Nat} {v : ℚ} (h : valueAt s d = some v) :
    ∃ o ∈ s, o.date = d ∧ o.value = v := by
  rw [valueAt] at h
  cases hf : s.find? (fun o => o.date == d) with
  | none => rw [hf] at h; simp at h
  | some o =>
    rw [hf] at h
    simp only [Option.map_some'] at h
    have hmem := List.mem_of_find?_eq_some hf
    have hp := List.find?_some hf
    exact ⟨o, hmem, by simpa using hp, by injection h⟩

theorem valueAt_none {s : List Obs} {d : Nat} (h : valueAt s d = none) :
    ∀ o ∈ s, o.date ≠ d := by
  rw [valueAt] at h
  cases hf : s.find? (fun o => o.date == d) with
  | some o => rw [hf] at h; simp at h
  | none =>
    intro o ho hd
    have := List.find?_eq_none.mp hf o ho
    simp [hd] at this

theorem ffillValue_of_valueAt {s : List Obs} {d : Nat} {v : ℚ}
    (hnd : (s.map (fun o => o.date)).Nodup) (h : valueAt s d = some v) :
    ffillValue s d = some v := by
  obtain ⟨o, ho, hdate, hval⟩ := valueAt_some h
  have hqual : (fun e => decide (e ≤ d)) o.date = true := by simp [hdate]
  cases hb : bestWithin (fun e => decide (e ≤ d)) s with
  | none => exact absurd hb (bestWithin_ne_none ho hqual)
  | some q =>
    have hqmem := bestWithin_mem hb
    have hqle : q.date ≤ d := by simpa using hqmem.2
    have hmax := bestWithin_max hb o ho hqual
    have hqd : q.date = d := le_antisymm hqle (hdate ▸ hmax)
    have hqo : q = o :=
      List.inj_on_of_nodup_map hnd hqmem.1 ho (by rw [hqd, hdate])
    rw [ffillValue, hb, hqo]
    simp [hval]

theorem ffillValue_of_absent {s : List Obs} {d : Nat} (h : valueAt s d = none) :
    ffillValue s d = prevValue s d := by
  have hne := valueAt_none h
  have hc : bestWithin (fun e => decide (e ≤ d)) s = bestWithin (fun e => decide (e < d)) s := by
    apply bestWithin_congr
    intro o ho
    have hne2 : o.date ≠ d := hne o ho
    simp only [decide_eq_decide]
    omega
  rw [ffillValue, prevValue, hc]

theorem ffill2_map_eq (a b : List Obs)
    (hna : (a.map (fun o => o.date)).Nodup) (hnb : (b.map (fun o => o.date)).Nodup) :
    ∀ (ds : List Nat), ds.Pairwise (· < ·) →
      (∀ o ∈ a, o.date ∈ ds ∨ ∀ e ∈ ds, o.date < e) →
      (∀ o ∈ b, o.date ∈ ds ∨ ∀ e ∈ ds, o.date < e) →
      ∀ (ca cb : Option ℚ),
      (∀ e t, ds = e :: t → ca = prevValue a e) →
      (∀ e t, ds = e :: t → cb = prevValue b e) →
      ffill2 ca cb (ds.map (fun d => (d, valueAt a d, valueAt b d))) =
        ds.map (fun d => (d, ffillValue a d, ffillValue b d)) := by
  intro ds
  induction ds with
  | nil => intro _ _ _ ca cb _ _; rfl
  | cons d rest ih =>
    intro hsort hcova hcovb ca cb hcaeq hcbeq
    have hsort1 := List.pairwise_cons.mp hsort
    have hx : (match valueAt a d with | some v => some v | none => ca) = ffillValue a d := by
      cases hv : valueAt a d with
      | some v => exact (ffillValue_of_valueAt hna hv).symm
      | none =>
        rw [ffillValue_of_absent hv]
        exact hcaeq d rest rfl
    have hy : (match valueAt b d with | some v => some v | none => cb) = ffillValue b d := by
      cases hv : valueAt b d with
      | some v => exact (ffillValue_of_valueAt hnb hv).symm
      | none =>
        rw [ffillValue_of_absent hv]
        exact hcbeq d rest rfl
    have hnexta : ∀ (s : List Obs), (∀ o ∈ s, o.date ∈ (d :: rest) ∨ ∀ e ∈ (d :: rest), o.date < e) →
        ∀ e t2, rest = e :: t2 → ffillValue s d = prevValue s e := by
      intro s hcov e t2 hrest
      have hde : d < e := by
        have := hsort1.1 e
        rw [hrest] at this
        exact this (List.mem_cons_self e t2)
      have hrest_sorted : rest.Pairwise (· < ·) := hsort1.2
      have hc : bestWithin (fun x => decide (x ≤ d)) s = bestWithin (fun x => decide (x < e)) s := by
        apply bestWithin_congr
        intro o ho
        simp only [decide_eq_decide]
        constructor
        · intro hle
          exact lt_of_le_of_lt hle hde
        · intro hlt
          by_contra hgt
          push_neg at hgt
          rcases hcov o ho with hmem | hall
          · rcases List.mem_cons.mp hmem with hcd | hcr
            · omega
            · rw [hrest] at hcr
              rcases List.mem_cons.mp hcr with hce | hct
              · omega
              · have : e < o.date := by
                  rw [hrest] at hrest_sorted
                  exact (List.pairwise_cons.mp hrest_sorted).1 o.date hct
                omega
          · have := hall d (List.mem_cons_self d rest)
            omega
      rw [ffillValue, prevValue, hc]
    simp only [List.map_cons, ffill2]
    rw [hx, hy]
    congr 1
    apply ih hsort1.2
    · intro o ho
      rcases hcova o ho with hmem | hall
      · rcases List.mem_cons.mp hmem with hcd | hcr
        · right
          intro e he
          rw [hcd]
          exact hsort1.1 e he
        · left; exact hcr
      · right
        intro e he
        exact hall e (List.mem_cons_of_mem d he)
    · intro o ho
      rcases hcovb o ho with hmem | hall
      · rcases List.mem_cons.mp hmem with hcd | hcr
        · right
          intro e he
          rw [hcd]
          exact hsort1.1 e he
        · left; exact hcr
      · right
        intro e he
        exact hall e (List.mem_cons_of_mem d he)
    · intro e t2 hrest
      exact hnexta a hcova e t2 hrest
    · intro e t2 hrest
      exact hnexta b hcovb e t2 hrest

theorem ffill_union_eq (a b : List Obs)
    (hna : (a.map (fun o => o.date)).Nodup) (hnb : (b.map (fun o => o.date)).Nodup) :
    ffill2 none none ((unionDates a b).map (fun d => (d, valueAt a d, valueAt b d))) =
      (unionDates a b).map (fun d => (d, ffillValue a d, ffillValue b d)) := by
  have hmin : ∀ e t, unionDates a b = e :: t → ∀ x ∈ unionDates a b, e ≤ x := by
    intro e t hu x hx
    have hp := unionDates_pairwise a b
    rw [hu] at hp hx
    rcases List.mem_cons.mp hx with rfl | hxt
    · exact le_refl _
    · exact le_of_lt ((List.pairwise_cons.mp hp).1 x hxt)
  have hprev : ∀ (s : List Obs), (∀ o ∈ s, o.date ∈ unionDates a b) →
      ∀ e t, unionDates a b = e :: t → prevValue s e = none := by
    intro s hcov e t hu
    rw [prevValue, bestWithin_none, Option.map_none']
    intro o ho
    have hge : e ≤ o.date := hmin e t hu o.date (hcov o ho)
    simp only [decide_eq_false_iff_not]
    omega
  apply ffill2_map_eq a b hna hnb _ (unionDates_pairwise a b)
  · intro o ho
    left
    exact mem_unionDates.mpr (Or.inl ⟨o, ho, rfl⟩)
  · intro o ho
    left
    exact mem_unionDates.mpr (Or.inr ⟨o, ho, rfl⟩)
  · intro e t hu
    exact (hprev a (fun o ho => mem_unionDates.mpr (Or.inl ⟨o, ho, rfl⟩)) e t hu).symm
  · intro e t hu
    exact (hprev b (fun o ho => mem_unionDates.mpr (Or.inr ⟨o, ho, rfl⟩)) e t hu).symm

theorem alignFrame_eq (a b : List Obs)
    (hna : (a.map (fun o => o.date)).Nodup) (hnb : (b.map (fun o => o.date)).Nodup) :
    alignFrame a b = ((unionDates a b).filterMap (fun d =>
      match ffillValue a d, ffillValue b d with
      | some x, some y => some (d, x, y)
      | _, _ => none)).reverse := by
  rw [alignFrame, ffill_union_eq a b hna hnb]
  congr 1
  rw [dropUnresolved, List.filterMap_map]
  congr 1
  funext d
  simp only [Function.comp_apply]
  cases ffillValue a d <;> cases ffillValue b d <;> rfl

theorem mem_alignFrame {a b : List Obs}
    (hna : (a.map (fun o => o.date)).Nodup) (hnb : (b.map (fun o => o.date)).Nodup)
    {d : Nat} {x y : ℚ} :
    (d, x, y) ∈ alignFrame a b ↔
      d ∈ unionDates a b ∧ ffillValue a d = some x ∧ ffillValue b d = some y := by
  rw [alignFrame_eq a b hna hnb, List.mem_reverse, List.mem_filterMap]
  constructor
  · rintro ⟨e, he, heq⟩
    cases hfa : ffillValue a e with
    | none =>
      cases hfb : ffillValue b e with
      | none => rw [hfa, hfb] at heq; exact Option.noConfusion heq
      | some w => rw [hfa, hfb] at heq; exact Option.noConfusion heq
    | some u =>
      cases hfb : ffillValue b e with
      | none => rw [hfa, hfb] at heq; exact Option.noConfusion heq
      | some w =>
        rw [hfa, hfb] at heq
        simp only [Option.some.injEq, Prod.mk.injEq] at heq
        obtain ⟨rfl, rfl, rfl⟩ := heq
        exact ⟨he, hfa, hfb⟩
  · rintro ⟨hd, hfa, hfb⟩
    refine ⟨d, hd, ?_⟩
    rw [hfa, hfb]

theorem ffill2_dates : ∀ (ca cb : Option ℚ) (rows : List (Nat × Option ℚ × Option ℚ)),
    (ffill2 ca cb rows).map (fun r => r.1) = rows.map (fun r => r.1) := by
  intro ca cb rows
  induction rows generalizing ca cb with
  | nil => rfl
  | cons r rest ih =>
    obtain ⟨d, av, bv⟩ := r
    simp only [ffill2, List.map_cons]
    rw [ih]

theorem dropUnresolved_dates_sublist : ∀ (rows : List (Nat × Option ℚ × Option ℚ)),
    ((dropUnresolved rows).map (fun r => r.1)).Sublist (rows.map (fun r => r.1)) := by
  intro rows
  induction rows with
  | nil => simp [dropUnresolved]
  | cons r rest ih =>
    obtain ⟨d, av, bv⟩ := r
    cases av with
    | none =>
      simp only [dropUnresolved, List.filterMap_cons, List.map_cons]
      exact ih.cons _
    | some x =>
      cases bv with
      | none =>
        simp only [dropUnresolved, List.filterMap_cons, List.map_cons]
        exact ih.cons _
      | some y =>
        simp only [dropUnresolved, List.filterMap_cons, List.map_cons]
        exact ih.cons₂ _

theorem align_dates_sorted_desc (a b : List Obs) :
    ((alignFrame a b).map (fun r => r.1)).Pairwise (fun x y => y < x) := by
  rw [alignFrame, List.map_reverse, List.pairwise_reverse]
  have hasc : ((dropUnresolved (ffill2 none none
      ((unionDates a b).map (fun d => (d, valueAt a d, valueAt b d))))).map
        (fun r => r.1)).Pairwise (· < ·) := by
    apply List.Pairwise.sublist (dropUnresolved_dates_sublist _)
    rw [ffill2_dates]
    have hid : (((unionDates a b).map (fun d => (d, valueAt a d, valueAt b d))).map
        (fun r => r.1)) = unionDates a b := by
      rw [List.map_map]
      have : ((fun (r : Nat × Option ℚ × Option ℚ) => r.1) ∘
          (fun d => (d, valueAt a d, valueAt b d))) = fun d => d := by
        funext d
        rfl
      rw [this]
      exact List.map_id' _
    rw [hid]
    exact unionDates_pairwise a b
  exact hasc

/-- C4 counterexample: aligning A = {1 ↦ 1.0, 3 ↦ 1.2} with
B = {2 ↦ 2.0} yields the frame `[(3, 6/5, 2), (2, 1, 2)]`, whose date
order 3, 2 is NOT ascending — `calculate_spread` sorts the joined
frame with `ascending=False`. -/
theorem align_not_ascending_counterexample :
    alignFrame exA exB = [(3, 6/5, 2), (2, 1, 2)] ∧
    ¬ ((alignFrame exA exB).map (fun r => r.1)).Pairwise (fun x y => x ≤ y) := by
  refine ⟨by rfl, ?_⟩
  intro h
  have hmap : (alignFrame exA exB).map (fun r => r.1) = [3, 2] := by rfl
  rw [hmap] at h
  have h32 : (3 : Nat) ≤ 2 := (List.pairwise_cons.mp h).1 2 (List.mem_cons_self 2 [])
  omega

/-- C4 (amended): the aligned frame produced by `calculate_spread` is
ordered DESCENDING by date (`sort_index(ascending=False)`, latest
first); consumers that need chronological order re-sort it ascending
themselves. -/
theorem align_sorted_descending (a b : List Obs) :
    ((alignFrame a b).map (fun r => r.1)).Pairwise (fun x y => y < x) :=
  align_dates_sorted_desc a b

/-- C6: the aligned frame is indexed by the union of the two series'
dates; it keeps a date exactly when both sides are resolvable after
forward fill, and the row then carries, for each side, the value of
that side's most recent observation at-or-before the date — never a
later one (last conjunct: any forward-filled value comes from an
observation at or before the date that is the latest such).  Stated
for series with distinct dates, as the upstream source provides. -/
theorem align_forward_fill_spec (a b : List Obs)
    (hna : (a.map (fun o => o.date)).Nodup) (hnb : (b.map (fun o => o.date)).Nodup) :
    (∀ d, d ∈ unionDates a b ↔ (∃ o ∈ a, o.date = d) ∨ (∃ o ∈ b, o.date = d)) ∧
    (∀ d x y, (d, x, y) ∈ alignFrame a b ↔
      d ∈ unionDates a b ∧ ffillValue a d = some x ∧ ffillValue b d = some y) ∧
    (∀ (s : List Obs) (d : Nat) (v : ℚ), ffillValue s d = some v →
      ∃ o ∈ s, o.value = v ∧ o.date ≤ d ∧ ∀ p ∈ s, p.date ≤ d → p.date ≤ o.date) := by
  refine ⟨fun d => mem_unionDates, fun d x y => mem_alignFrame hna hnb, ?_⟩
  intro s d v hv
  rw [ffillValue] at hv
  cases hb : bestWithin (fun e => decide (e ≤ d)) s with
  | none => rw [hb] at hv; exact Option.noConfusion hv
  | some q =>
    rw [hb] at hv
    simp only [Option.map_some', Option.some.injEq] at hv
    have hm := bestWithin_mem hb
    refine ⟨q, hm.1, hv, by simpa using hm.2, ?_⟩
    intro p hp hpd
    exact bestWithin_max hb p hp (by simpa using hpd)

/-- C6 witness: aligning A = {1 ↦ 1.0, 3 ↦ 1.2} with B = {2 ↦ 2.0}
keeps exactly the dates 3, 2 (date 1 is dropped since B is unresolved
there), with A forward-filled: A(2) = 1.0. -/
theorem align_forward_fill_spec_witness :
    ((2 : Nat), (1 : ℚ), (2 : ℚ)) ∈ alignFrame exA exB ∧
    (alignFrame exA exB).map (fun r => r.1) = [3, 2] :=
  ⟨((align_forward_fill_spec exA exB (by decide) (by decide)).2.1 2 1 2).mpr
    ⟨by decide, by rfl, by rfl⟩, by rfl⟩

/-- C7: every spread row equals `(A(date) − B(date)) × m` for the
aligned values at its date, and the latest spread (`iloc[0]`) is the
spread at the most recent aligned date — the first row of the
date-descending frame; with an empty aligned frame the latest spread
is Unavailable. -/
theorem spread_latest_spec (a b : List Obs) (m : ℚ) :
    (∀ d s, (d, s) ∈ spreadFrame a b m ↔
      ∃ x y, (d, x, y) ∈ alignFrame a b ∧ s = (x - y) * m) ∧
    (∀ r, (alignFrame a b).head? = some r →
      latestSpread a b m = some ((r.2.1 - r.2.2) * m) ∧
      ∀ q ∈ alignFrame a b, q.1 ≤ r.1) ∧
    (alignFrame a b = [] → latestSpread a b m = none) := by
  refine ⟨?_, ?_, ?_⟩
  · intro d s
    rw [spreadFrame, List.mem_map]
    constructor
    · rintro ⟨r, hr, heq⟩
      obtain ⟨e, x, y⟩ := r
      simp only [Prod.mk.injEq] at heq
      obtain ⟨rfl, rfl⟩ := heq
      exact ⟨x, y, hr, rfl⟩
    · rintro ⟨x, y, hxy, rfl⟩
      exact ⟨(d, x, y), hxy, rfl⟩
  · intro r hr
    obtain ⟨t, ht⟩ : ∃ t, alignFrame a b = r :: t := by
      cases hc : alignFrame a b with
      | nil => rw [hc] at hr; exact Option.noConfusion hr
      | cons z t =>
        rw [hc] at hr
        have hz : z = r := by simpa using hr
        exact ⟨t, by rw [hz]⟩
    constructor
    · rw [latestSpread, spreadFrame, ht]
      rfl
    · intro q hq
      have hdesc := align_dates_sorted_desc a b
      rw [ht] at hdesc hq
      rcases List.mem_cons.mp hq with rfl | hqt
      · exact le_refl _
      · rw [List.map_cons] at hdesc
        have hlt := (List.pairwise_cons.mp hdesc).1 q.1 (List.mem_map.mpr ⟨q, hqt, rfl⟩)
        exact le_of_lt hlt
  · intro hnil
    rw [latestSpread, spreadFrame, hnil]
    rfl

/-- C7 witness: the spec's end-to-end scenario — A = {5 ↦ 5.33,
4 ↦ 5.30}, B = {5 ↦ 5.31, 4 ↦ 5.31}, multiplier 100 — gives latest
spread 2.0, which the SOFR-IORB band table classifies into the
"normal" band (its message). -/
theorem spread_latest_spec_witness :
    latestSpread c7A c7B 100 = some 2 ∧
    get_signal_status 2 sofrIorbSignals = "✅ 정상 - 은행간 거래 활발" := by
  have h := ((spread_latest_spec c7A c7B 100).2.1 (5, 533/100, 531/100) (by rfl)).1
  constructor
  · rw [h]
    norm_num
  · rfl

end Fed
